import Mathlib

set_option maxRecDepth 100000

/-!
Verification of the Legendre / Hermite correctly-rounded polynomial
evaluators (src/src/legendre.c, src/src/hermite.c) against their
natural-language specification.

The arbitrary-precision layer (mpfr_add, mpfr_sub, mpfr_mul, mpfr_div_ui,
mpfr_set and friends) is external to the two source files.  Following the
specification, an MPFR finite value is a dyadic rational and every
directed-rounding primitive is the correct rounding of the exact rational
result to the working precision.  We model finite values as rationals and
rounding as an explicit function on rationals.
-/

namespace MpfrSpec

/-- Rounding modes of the library: to nearest (ties to even), toward zero,
toward plus infinity, toward minus infinity, away from zero. -/
inductive Rnd
  | N | Z | U | D | A
deriving DecidableEq, Repr

theorem natAbs_castQ (m : ℤ) : ((m.natAbs : ℚ)) = |(m : ℚ)| := by
  rw [Int.cast_natAbs, Int.cast_abs]

/-- Fueled bit-length recursion (structural, so that concrete values reduce
inside the kernel). -/
def bitLenAux : ℕ → ℕ → ℕ
  | 0, _ => 0
  | f + 1, n => if n = 0 then 0 else bitLenAux f (n / 2) + 1

/-- Bit length of a natural number: 0 for 0, and the unique L with
2^(L-1) <= n < 2^L otherwise. -/
def bitLen (n : ℕ) : ℕ :=
  bitLenAux n n

theorem bitLenAux_zero (f : ℕ) : bitLenAux f 0 = 0 := by
  cases f <;> rfl

theorem bitLenAux_spec :
    ∀ f n, 1 ≤ n → n ≤ f →
      2 ^ (bitLenAux f n - 1) ≤ n ∧ n < 2 ^ (bitLenAux f n) := by
  intro f
  induction f with
  | zero => intro n h1 h2; omega
  | succ f ih =>
    intro n h1 h2
    have hne : ¬ n = 0 := by omega
    simp only [bitLenAux, if_neg hne]
    by_cases hn1 : n = 1
    · subst hn1
      simp [Nat.div_self, bitLenAux_zero]
    · have hd1 : 1 ≤ n / 2 := by omega
      have hdf : n / 2 ≤ f := by omega
      obtain ⟨hl, hu⟩ := ih (n / 2) hd1 hdf
      set L := bitLenAux f (n / 2) with hL
      have hL1 : 1 ≤ L := by
        rcases Nat.eq_zero_or_pos L with h0 | h
        · rw [h0] at hu; simp at hu; omega
        · exact h
      have hP1 : 2 ^ L = 2 * 2 ^ (L - 1) := by
        conv_lhs => rw [show L = (L - 1) + 1 by omega]
        rw [pow_succ]
        ring
      have hP2 : 2 ^ (L + 1) = 2 * 2 ^ L := by
        rw [pow_succ]
        ring
      have hcancel : L + 1 - 1 = L := by omega
      rw [hcancel]
      omega

theorem bitLen_spec {n : ℕ} (h : 1 ≤ n) :
    2 ^ (bitLen n - 1) ≤ n ∧ n < 2 ^ (bitLen n) :=
  bitLenAux_spec n n h le_rfl

theorem bitLen_pos {n : ℕ} (h : 1 ≤ n) : 1 ≤ bitLen n := by
  obtain ⟨-, hu⟩ := bitLen_spec h
  rcases Nat.eq_zero_or_pos (bitLen n) with h0 | hp
  · rw [h0, pow_zero] at hu; omega
  · exact hp

/-- The reduced numerator/denominator form of the absolute value. -/
theorem abs_num_den (q : ℚ) : |q| = ((q.num.natAbs : ℚ)) / ((q.den : ℚ)) := by
  conv_lhs => rw [← Rat.num_div_den q]
  rw [abs_div, natAbs_castQ]
  congr 1
  exact abs_of_pos (by exact_mod_cast q.den_pos)

/-- First exponent candidate: the difference of the numerator and
denominator bit lengths. -/
def expQ0 (a b : ℕ) : ℤ :=
  (bitLen a : ℤ) - (bitLen b : ℤ)

/-- Modelled from the spec: MPFR_GET_EXP.  For a nonzero value q, the unique
exponent e with 2^(e-1) <= abs q < 2^e, computed by integer arithmetic.
Junk value 0 at q = 0. -/
def expQ (q : ℚ) : ℤ :=
  if q = 0 then 0
  else
    if 0 ≤ expQ0 q.num.natAbs q.den then
      if q.den * 2 ^ (expQ0 q.num.natAbs q.den).toNat ≤ q.num.natAbs
      then expQ0 q.num.natAbs q.den + 1 else expQ0 q.num.natAbs q.den
    else
      if q.den ≤ q.num.natAbs * 2 ^ (-(expQ0 q.num.natAbs q.den)).toNat
      then expQ0 q.num.natAbs q.den + 1 else expQ0 q.num.natAbs q.den

theorem two_zpow_natCast (u : ℕ) : ((2 ^ u : ℕ) : ℚ) = (2 : ℚ) ^ ((u : ℤ)) := by
  push_cast
  rw [← zpow_natCast (2 : ℚ) u]

theorem two_zpow_natCast_pred {u : ℕ} (hu : 1 ≤ u) :
    ((2 ^ (u - 1) : ℕ) : ℚ) = (2 : ℚ) ^ ((u : ℤ) - 1) := by
  push_cast
  rw [← zpow_natCast (2 : ℚ) (u - 1), Nat.cast_sub hu]
  norm_num

/-- The integer comparison inside expQ decides the rational comparison
2^e0 <= abs q. -/
theorem expQ_eq_cond {q : ℚ} (hq : q ≠ 0) :
    expQ q = if (2 : ℚ) ^ (expQ0 q.num.natAbs q.den) ≤ |q|
      then expQ0 q.num.natAbs q.den + 1 else expQ0 q.num.natAbs q.den := by
  have hbQ : (0 : ℚ) < (q.den : ℚ) := by exact_mod_cast q.den_pos
  unfold expQ
  rw [if_neg hq]
  rcases le_or_lt 0 (expQ0 q.num.natAbs q.den) with h0 | h0
  · rw [if_pos h0]
    have h2 : (2 : ℚ) ^ (expQ0 q.num.natAbs q.den)
        = ((2 ^ (expQ0 q.num.natAbs q.den).toNat : ℕ) : ℚ) := by
      rw [two_zpow_natCast, Int.toNat_of_nonneg h0]
    have hiff : (q.den * 2 ^ (expQ0 q.num.natAbs q.den).toNat ≤ q.num.natAbs)
        ↔ ((2 : ℚ) ^ (expQ0 q.num.natAbs q.den) ≤ |q|) := by
      rw [abs_num_den q, le_div_iff hbQ, h2]
      rw [show ((2 ^ (expQ0 q.num.natAbs q.den).toNat : ℕ) : ℚ) * (q.den : ℚ)
          = ((2 ^ (expQ0 q.num.natAbs q.den).toNat * q.den : ℕ) : ℚ) by push_cast; ring]
      rw [Nat.cast_le, Nat.mul_comm]
    simp only [hiff]
  · rw [if_neg (by omega)]
    have h2 : (2 : ℚ) ^ (expQ0 q.num.natAbs q.den)
        = 1 / ((2 ^ (-(expQ0 q.num.natAbs q.den)).toNat : ℕ) : ℚ) := by
      rw [two_zpow_natCast, Int.toNat_of_nonneg (by omega : 0 ≤ -(expQ0 q.num.natAbs q.den))]
      rw [one_div, ← zpow_neg, neg_neg]
    have hiff : (q.den ≤ q.num.natAbs * 2 ^ (-(expQ0 q.num.natAbs q.den)).toNat)
        ↔ ((2 : ℚ) ^ (expQ0 q.num.natAbs q.den) ≤ |q|) := by
      rw [abs_num_den q, h2, div_le_div_iff (by positivity) hbQ]
      rw [show (q.num.natAbs : ℚ) * ((2 ^ (-(expQ0 q.num.natAbs q.den)).toNat : ℕ) : ℚ)
          = ((q.num.natAbs * 2 ^ (-(expQ0 q.num.natAbs q.den)).toNat : ℕ) : ℚ) by push_cast; ring]
      rw [one_mul, Nat.cast_le]
    simp only [hiff]

theorem expQ_bracket_aux {x : ℚ} {a b ka kb : ℕ}
    (hxab : x = (a : ℚ) / (b : ℚ)) (hb1 : 1 ≤ b)
    (hka1 : 1 ≤ ka) (hkb1 : 1 ≤ kb)
    (hal : 2 ^ (ka - 1) ≤ a) (hau : a < 2 ^ ka)
    (hbl : 2 ^ (kb - 1) ≤ b) (hbu : b < 2 ^ kb) :
    (2 : ℚ) ^ ((ka : ℤ) - kb - 1) < x ∧ x < (2 : ℚ) ^ ((ka : ℤ) - kb + 1) := by
  have ha1 : 1 ≤ a := le_trans (Nat.one_le_two_pow) hal
  have haQ : (0 : ℚ) < (a : ℚ) := by exact_mod_cast ha1
  have hbQ : (0 : ℚ) < (b : ℚ) := by exact_mod_cast hb1
  have halQ : (2 : ℚ) ^ ((ka : ℤ) - 1) ≤ (a : ℚ) := by
    rw [← two_zpow_natCast_pred hka1]; exact_mod_cast hal
  have hauQ : (a : ℚ) < (2 : ℚ) ^ ((ka : ℤ)) := by
    rw [← two_zpow_natCast ka]; exact_mod_cast hau
  have hblQ : (2 : ℚ) ^ ((kb : ℤ) - 1) ≤ (b : ℚ) := by
    rw [← two_zpow_natCast_pred hkb1]; exact_mod_cast hbl
  have hbuQ : (b : ℚ) < (2 : ℚ) ^ ((kb : ℤ)) := by
    rw [← two_zpow_natCast kb]; exact_mod_cast hbu
  constructor
  · have he : ((ka : ℤ) - kb - 1) = ((ka : ℤ) - 1) - kb := by ring
    rw [hxab, he, zpow_sub₀ (by norm_num : (2:ℚ) ≠ 0),
      div_lt_div_iff (by positivity) hbQ]
    calc (2 : ℚ) ^ ((ka : ℤ) - 1) * (b : ℚ)
        ≤ (a : ℚ) * (b : ℚ) := mul_le_mul_of_nonneg_right halQ hbQ.le
      _ < (a : ℚ) * (2 : ℚ) ^ ((kb : ℤ)) := mul_lt_mul_of_pos_left hbuQ haQ
  · have he : ((ka : ℤ) - kb + 1) = (ka : ℤ) - ((kb : ℤ) - 1) := by ring
    rw [hxab, he, zpow_sub₀ (by norm_num : (2:ℚ) ≠ 0),
      div_lt_div_iff hbQ (by positivity)]
    calc (a : ℚ) * (2 : ℚ) ^ ((kb : ℤ) - 1)
        < (2 : ℚ) ^ ((ka : ℤ)) * (2 : ℚ) ^ ((kb : ℤ) - 1) :=
          mul_lt_mul_of_pos_right hauQ (by positivity)
      _ ≤ (2 : ℚ) ^ ((ka : ℤ)) * (b : ℚ) :=
          mul_le_mul_of_nonneg_left hblQ (by positivity)

theorem expQ_bounds {q : ℚ} (hq : q ≠ 0) :
    (2 : ℚ) ^ (expQ q - 1) ≤ |q| ∧ |q| < (2 : ℚ) ^ (expQ q) := by
  have ha1 : 1 ≤ q.num.natAbs := by
    have hnz : q.num ≠ 0 := Rat.num_ne_zero.mpr hq
    omega
  have hb1 : 1 ≤ q.den := q.den_pos
  obtain ⟨hal, hau⟩ := bitLen_spec ha1
  obtain ⟨hbl, hbu⟩ := bitLen_spec hb1
  have hka1 : 1 ≤ bitLen q.num.natAbs := bitLen_pos ha1
  have hkb1 : 1 ≤ bitLen q.den := bitLen_pos hb1
  obtain ⟨hlow, hup⟩ :=
    expQ_bracket_aux (abs_num_den q) hb1 hka1 hkb1 hal hau hbl hbu
  have he0 : expQ0 q.num.natAbs q.den
      = (bitLen q.num.natAbs : ℤ) - (bitLen q.den : ℤ) := rfl
  rw [expQ_eq_cond hq, he0]
  constructor
  · split
    · case isTrue h =>
        have he : (bitLen q.num.natAbs : ℤ) - (bitLen q.den : ℤ) + 1 - 1
            = (bitLen q.num.natAbs : ℤ) - (bitLen q.den : ℤ) := by ring
        rw [he]
        exact h
    · case isFalse h => exact le_of_lt hlow
  · split
    · case isTrue h => exact hup
    · case isFalse h => push_neg at h; exact h

/-- Lower bound of the exponent bracket. -/
theorem expQ_lb {q : ℚ} (hq : q ≠ 0) : (2 : ℚ) ^ (expQ q - 1) ≤ |q| :=
  (expQ_bounds hq).1

/-- Upper bound of the exponent bracket. -/
theorem expQ_ub {q : ℚ} (hq : q ≠ 0) : |q| < (2 : ℚ) ^ (expQ q) :=
  (expQ_bounds hq).2

/-- The dyadic rational m * 2^k, assembled by integer arithmetic. -/
def mkDyadic (m k : ℤ) : ℚ :=
  if 0 ≤ k then ((m * 2 ^ k.toNat : ℤ) : ℚ)
  else (m : ℚ) / ((2 ^ (-k).toNat : ℤ) : ℚ)

theorem mkDyadic_val (m k : ℤ) : mkDyadic m k = (m : ℚ) * (2 : ℚ) ^ k := by
  unfold mkDyadic
  split
  · case isTrue h =>
      push_cast
      rw [← zpow_natCast (2 : ℚ) k.toNat, Int.toNat_of_nonneg h]
  · case isFalse h =>
      push_cast
      rw [← zpow_natCast (2 : ℚ) (-k).toNat, Int.toNat_of_nonneg (by omega : (0:ℤ) ≤ -k)]
      rw [div_eq_mul_inv, ← zpow_neg, neg_neg]

/-- Rounding of a nonnegative fraction N / D to an integer, parameterised by
the rounding mode and the sign of the original value (nearest ties to
even). -/
def intRoundN (rnd : Rnd) (neg : Bool) (N D : ℕ) : ℕ :=
  if N % D = 0 then N / D
  else
    match rnd with
    | .Z => N / D
    | .A => N / D + 1
    | .U => if neg then N / D else N / D + 1
    | .D => if neg then N / D + 1 else N / D
    | .N =>
      if 2 * (N % D) < D then N / D
      else if D < 2 * (N % D) then N / D + 1
      else if (N / D) % 2 = 0 then N / D else N / D + 1

/-- Modelled from the spec: the correctly-rounded bignum layer.  Rounds a
rational to a floating-point value with a p-bit significand under the given
rounding mode, by integer arithmetic on the scaled significand.  Every mpfr
arithmetic primitive used by the two source files is this function applied
to the exact rational result. -/
def roundQ (p : ℕ) (rnd : Rnd) (q : ℚ) : ℚ :=
  if q = 0 then 0
  else
    mkDyadic
      ((if q < 0 then -1 else 1) *
        (intRoundN rnd (decide (q < 0))
          (q.num.natAbs * 2 ^ ((p : ℤ) - expQ q).toNat)
          (q.den * 2 ^ (-((p : ℤ) - expQ q)).toNat) : ℤ))
      (expQ q - (p : ℤ))

/-- Modelled from the spec: the ternary value of a single rounding, positive
when the rounded result exceeds the exact value, negative when below, zero
when exact. -/
def ternQ (p : ℕ) (rnd : Rnd) (q : ℚ) : ℤ :=
  let r := roundQ p rnd q
  if q < r then 1 else if r < q then -1 else 0

/-- The value q is exactly representable with a p-bit significand. -/
def reprAt (p : ℕ) (q : ℚ) : Prop :=
  ∃ (m : ℤ) (k : ℤ), q = (m : ℚ) * 2 ^ k ∧ m.natAbs < 2 ^ p

theorem reprAt_zero (p : ℕ) : reprAt p 0 :=
  ⟨0, 0, by simp, by positivity⟩

theorem reprAt_one {p : ℕ} (hp : 1 ≤ p) : reprAt p 1 :=
  ⟨1, 0, by simp, by simpa using Nat.one_lt_two_pow_iff.mpr (by omega)⟩

theorem reprAt_neg {p : ℕ} {q : ℚ} (h : reprAt p q) : reprAt p (-q) := by
  obtain ⟨m, k, rfl, hm⟩ := h
  exact ⟨-m, k, by push_cast; ring, by simpa using hm⟩

theorem reprAt_two_mul {p : ℕ} {q : ℚ} (h : reprAt p q) : reprAt p (2 * q) := by
  obtain ⟨m, k, rfl, hm⟩ := h
  refine ⟨m, k + 1, ?_, hm⟩
  rw [zpow_add₀ (by norm_num : (2:ℚ) ≠ 0)]
  ring

/-- A value exactly representable at precision p is returned unchanged by the
rounding primitive, whatever the rounding mode. -/
theorem roundQ_exact {p : ℕ} {q : ℚ} (h : reprAt p q) (rnd : Rnd) :
    roundQ p rnd q = q := by
  obtain ⟨M, K, hqMK, hM⟩ := h
  by_cases h0 : q = 0
  · rw [h0]; simp [roundQ]
  have hM0 : M ≠ 0 := by
    rintro rfl
    simp at hqMK
    exact h0 hqMK
  have h2K : (0 : ℚ) < 2 ^ K := zpow_pos (by norm_num) K
  have habsM : |q| = (M.natAbs : ℚ) * 2 ^ K := by
    rw [hqMK, abs_mul, abs_of_pos h2K, natAbs_castQ]
  have hMQ : (M.natAbs : ℚ) < 2 ^ (p : ℤ) := by
    have h1 : (M.natAbs : ℚ) < ((2 ^ p : ℕ) : ℚ) := by exact_mod_cast hM
    rw [zpow_natCast]
    push_cast at h1
    exact h1
  set e := expQ q with he
  have hek : e ≤ K + p := by
    by_contra hc
    push_neg at hc
    have hub : |q| < 2 ^ ((K : ℤ) + p) := by
      rw [habsM]
      calc (M.natAbs : ℚ) * 2 ^ K < 2 ^ (p : ℤ) * 2 ^ K :=
            mul_lt_mul_of_pos_right hMQ h2K
        _ = 2 ^ ((K : ℤ) + p) := by
            rw [← zpow_add₀ (by norm_num : (2:ℚ) ≠ 0)]
            ring_nf
    have hlb := expQ_lb h0
    rw [← he] at hlb
    have hmono : (2 : ℚ) ^ ((K : ℤ) + p) ≤ 2 ^ (e - 1) := by
      apply zpow_le_zpow_right₀ (by norm_num) (by omega)
    linarith
  have hexp0 : 0 ≤ K + (p : ℤ) - e := by omega
  set S : ℕ := M.natAbs * 2 ^ (K + (p : ℤ) - e).toNat with hS
  have hSQ : (S : ℚ) = |q| * (2 : ℚ) ^ ((p : ℤ) - e) := by
    rw [hS]
    push_cast
    rw [← zpow_natCast (2 : ℚ) (K + (p : ℤ) - e).toNat, Int.toNat_of_nonneg hexp0]
    rw [habsM, mul_assoc, ← zpow_add₀ (by norm_num : (2:ℚ) ≠ 0)]
    congr 2
    ring
  set N : ℕ := q.num.natAbs * 2 ^ ((p : ℤ) - e).toNat with hN
  set D : ℕ := q.den * 2 ^ (-((p : ℤ) - e)).toNat with hD
  have hDpos : 0 < D := by
    rw [hD]
    exact Nat.mul_pos q.den_pos (pow_pos (by norm_num) _)
  have hDQ : ((D : ℚ)) ≠ 0 := by
    have : (0 : ℚ) < (D : ℚ) := by exact_mod_cast hDpos
    linarith
  have hABs : ((q.num.natAbs : ℚ)) = |q| * (q.den : ℚ) := by
    rw [abs_num_den q]
    field_simp
  have hst : ((((p : ℤ) - e).toNat : ℤ)) = ((p : ℤ) - e) + (((-((p : ℤ) - e)).toNat : ℤ)) := by
    omega
  have hpowsplit : (2 : ℚ) ^ (((p : ℤ) - e).toNat)
      = (2 : ℚ) ^ ((p : ℤ) - e) * (2 : ℚ) ^ ((-((p : ℤ) - e)).toNat) := by
    rw [← zpow_natCast (2 : ℚ) ((p : ℤ) - e).toNat,
      ← zpow_natCast (2 : ℚ) (-((p : ℤ) - e)).toNat,
      ← zpow_add₀ (by norm_num : (2:ℚ) ≠ 0), ← hst]
  have hfrac : (N : ℚ) = (S : ℚ) * (D : ℚ) := by
    calc (N : ℚ) = ((q.num.natAbs : ℚ)) * 2 ^ (((p : ℤ) - e).toNat) := by
          rw [hN]; push_cast; ring
      _ = |q| * (q.den : ℚ) * ((2 : ℚ) ^ ((p : ℤ) - e) * (2 : ℚ) ^ ((-((p : ℤ) - e)).toNat)) := by
          rw [hABs, hpowsplit]
      _ = (|q| * (2 : ℚ) ^ ((p : ℤ) - e)) * ((q.den : ℚ) * (2 : ℚ) ^ ((-((p : ℤ) - e)).toNat)) := by
          ring
      _ = (S : ℚ) * (D : ℚ) := by
          rw [hSQ, hD]; push_cast; ring
  have hND : N = S * D := by exact_mod_cast hfrac
  have hmod : N % D = 0 := by rw [hND]; exact Nat.mul_mod_left S D
  have hdiv : N / D = S := by rw [hND]; exact Nat.mul_div_cancel S hDpos
  have hIR : ∀ b, intRoundN rnd b N D = S := by
    intro b
    unfold intRoundN
    rw [if_pos hmod, hdiv]
  have hpp : (2 : ℚ) ^ ((p : ℤ) - e) * (2 : ℚ) ^ (e - (p : ℤ)) = 1 := by
    rw [← zpow_add₀ (by norm_num : (2:ℚ) ≠ 0)]
    norm_num
  unfold roundQ
  rw [if_neg h0, ← he, ← hN, ← hD, hIR]
  by_cases hneg : q < 0
  · rw [if_pos hneg, mkDyadic_val]
    push_cast
    rw [hSQ, abs_of_neg hneg]
    have hr : (-1 : ℚ) * (-q * 2 ^ ((p : ℤ) - e)) * 2 ^ (e - (p : ℤ))
        = q * ((2 : ℚ) ^ ((p : ℤ) - e) * 2 ^ (e - (p : ℤ))) := by ring
    rw [hr, hpp, mul_one]
  · rw [if_neg hneg, mkDyadic_val]
    push_cast
    rw [hSQ, abs_of_nonneg (not_lt.mp hneg)]
    have hr : (1 : ℚ) * (q * 2 ^ ((p : ℤ) - e)) * 2 ^ (e - (p : ℤ))
        = q * ((2 : ℚ) ^ ((p : ℤ) - e) * 2 ^ (e - (p : ℤ))) := by ring
    rw [hr, hpp, mul_one]

/-- An exactly representable value yields ternary 0. -/
theorem ternQ_exact {p : ℕ} {q : ℚ} (h : reprAt p q) (rnd : Rnd) :
    ternQ p rnd q = 0 := by
  unfold ternQ
  rw [roundQ_exact h rnd]
  simp

/-- Fueled helper stripping the factors of two from a natural number. -/
def oddCoreAux : ℕ → ℕ → ℕ
  | 0, n => n
  | f + 1, n => if n ≠ 0 ∧ n % 2 = 0 then oddCoreAux f (n / 2) else n

/-- Strip the factors of two from a natural number. -/
def oddCore (n : ℕ) : ℕ :=
  oddCoreAux n n

/-- Modelled from the spec: mpfr_min_prec, the minimal significand width that
represents the value exactly (the provably-exact exit of the Check state uses
it).  For a dyadic rational this is the bit length of the odd part of the
numerator. -/
def minPrec (q : ℚ) : ℕ :=
  bitLen (oddCore q.num.natAbs)

/-- Modelled from the spec: the can-round test, deciding whether every value
within the proven error interval rounds identically to the target precision
under the given mode.  Rounding is monotone, so agreement at the two interval
endpoints decides the test. -/
def canRound (b : ℚ) (err : ℤ) (prec : ℕ) (rnd : Rnd) : Bool :=
  if b = 0 then false
  else
    let d := (2 : ℚ) ^ (expQ b - err)
    decide (roundQ prec rnd (b - d) = roundQ prec rnd (b + d))

/-- Modelled from the spec: MPFR_INT_CEIL_LOG2, the ceiling of the base-two
logarithm of a positive integer. -/
def intCeilLog2 (n : ℕ) : ℕ :=
  bitLen (n - 1)

/-- Modelled from the spec: the Escalate transition of the Ziv loop
(MPFR_ZIV_NEXT lives in mpfr-impl.h, outside the two source files); it
strictly increases the working precision. -/
def zivNext (p : ℕ) : ℕ :=
  p + p / 2 + 32

/-- An MPFR value as seen by the two evaluators: NaN, a signed infinity, or a
finite dyadic rational (both zeros collapse onto the rational 0, whose sign
the claims never inspect). -/
inductive MF
  | nan
  | pinf
  | ninf
  | fin (q : ℚ)
deriving DecidableEq, Repr

/-- Embeds likely_cancellation of src/src/legendre.c: the number of bits that
the subtraction x - y would cancel, or 0 when cancellation is negligible. -/
def likely_cancellation (x y : ℚ) (prec : ℕ) : ℕ :=
  if x = 0 ∨ y = 0 then 0
  else if (decide (0 < x)) ≠ (decide (0 < y)) then 0
  else if 2 < ((expQ x) - (expQ y)).natAbs then 0
  else if roundQ (prec + 8) .N (x - y) = 0 then prec
  else if max (expQ x) (expQ y) - expQ (roundQ (prec + 8) .N (x - y)) ≤ 1 then 0
  else (max (expQ x) (expQ y) - expQ (roundQ (prec + 8) .N (x - y))).toNat

/-- The short-circuit branches of mpfr_legendre, in source order. -/
inductive LClass
  | nanCase | oneCase | moneCase | degZero | degOne | zeroOdd | general
deriving DecidableEq, Repr

/-- Embeds the classifier of mpfr_legendre: the domain and ceiling test,
then the x = 1, x = -1, n = 0, n = 1 and x = 0 with odd n short circuits.
The comparisons mpfr_lessequal_p and mpfr_greaterequal_p are false on NaN
and on the out-of-range infinity. -/
def legendreClassify (n : ℤ) (x : MF) : LClass :=
  let domOK : Bool :=
    match x with
    | .fin q => decide (q ≤ 1) && decide (-1 ≤ q)
    | _ => false
  if domOK = false ∨ n < 0 ∨ 8192 < n then .nanCase
  else if x = .fin 1 then .oneCase
  else if x = .fin (-1) then .moneCase
  else if n = 0 then .degZero
  else if n = 1 then .degOne
  else if x = .fin 0 ∧ n % 2 = 1 then .zeroOdd
  else .general

/-- Outcome of one compute pass of the Legendre recurrence: either the
cancellation detector aborted the pass, or the pass finished with the last
recurrence term. -/
inductive PassOut
  | cancel (lost : ℕ)
  | finished (pn : ℚ)
deriving DecidableEq, Repr

/-- Embeds the inner while loop of mpfr_legendre (one compute pass).  The
fuel argument counts the remaining iterations, n + 1 - i; i is the loop
counter of the source.  All arithmetic is rounded to nearest at the working
precision w. -/
def legWhile (w resP : ℕ) (x : ℚ) : ℕ → ℕ → ℚ → ℚ → ℚ → PassOut
  | 0, _, _, _, pn => .finished pn
  | f + 1, i, p1, p2, _ =>
    let ft0 := roundQ w .N (((2 * i - 1 : ℕ) : ℚ) * x)
    let st := roundQ w .N (((i - 1 : ℕ) : ℚ) * p2)
    let ft := roundQ w .N (ft0 * p1)
    let lost := likely_cancellation ft st w
    if (w : ℤ) - (resP : ℤ) < (lost : ℤ) then .cancel lost
    else
      let d := roundQ w .N (ft - st)
      let pn := roundQ w .N (d / (i : ℚ))
      legWhile w resP x f (i + 1) pn p1 pn

/-- One compute pass of mpfr_legendre: i starts at 2, p1 = x and p2 = 1 set
at the working precision, n - 1 iterations. -/
def legendreOnePass (w resP n : ℕ) (x : ℚ) : PassOut :=
  legWhile w resP x (n - 1) 2 (roundQ w .N x) 1 (roundQ w .N x)

/-- The recurrence exactly as the specification words it: p0 = 1, p1 = x,
and p_i equal to (2i-1) x p_(i-1) minus (i-1) p_(i-2), all over i, every
arithmetic operation rounded to nearest at the working precision.  Returns
the pair of the two most recent terms. -/
def legendreSpecAux (w : ℕ) (x : ℚ) : ℕ → ℚ × ℚ
  | 0 => (1, 1)
  | 1 => (x, 1)
  | i + 2 =>
    let prev := legendreSpecAux w x (i + 1)
    let v := roundQ w .N
      (roundQ w .N
        (roundQ w .N (roundQ w .N (((2 * (i + 2) - 1 : ℕ) : ℚ) * x) * prev.1)
          - roundQ w .N (((i + 1 : ℕ) : ℚ) * prev.2))
        / ((i + 2 : ℕ) : ℚ))
    (v, prev.1)

/-- The degree-n Legendre term of the specification recurrence. -/
def legendreSpec (w : ℕ) (x : ℚ) (n : ℕ) : ℚ :=
  (legendreSpecAux w x n).1

/-- Embeds the Compute state with its internal cancellation restarts: on a
cancel outcome the working precision grows by lost + 2, the error budget by
lost, and the whole pass restarts from the base cases. -/
def legendreCompute (resP : ℕ) (x : ℚ) (n : ℕ) : ℕ → ℕ → ℕ → Option (ℕ × ℕ × ℚ)
  | 0, _, _ => none
  | fuel + 1, w, err =>
    match legendreOnePass w resP n x with
    | .cancel lost => legendreCompute resP x n fuel (w + lost + 2) (err + lost)
    | .finished pn => some (w, err, pn)

/-- Embeds the Ziv loop of mpfr_legendre: run a compute pass, exit when the
result is provably exact or the can-round test passes, otherwise escalate
the working precision and retry. -/
def legendreZivLoop (resP : ℕ) (rnd : Rnd) (x : ℚ) (n : ℕ) :
    ℕ → ℕ → ℕ → Option ℚ
  | 0, _, _ => none
  | fuel + 1, w, err =>
    match legendreCompute resP x n (fuel + 1) w err with
    | none => none
    | some (w2, err2, pn) =>
      let test : ℤ := (w2 : ℤ) - (err2 : ℤ)
      if (minPrec pn : ℤ) < test - 1 then some pn
      else if canRound pn test resP rnd then some pn
      else legendreZivLoop resP rnd x n fuel (zivNext w2) err2

/-- Embeds mpfr_legendre of src/src/legendre.c.  The fuel bounds the number
of Ziv retries and cancellation restarts (the source loop is unbounded);
none marks fuel exhaustion, never reached by any short-circuit branch. -/
def mpfr_legendre (fuel resPrec : ℕ) (n : ℤ) (xprec : ℕ) (x : MF) (rnd : Rnd) :
    Option (MF × ℤ) :=
  match legendreClassify n x with
  | .nanCase => some (.nan, 0)
  | .oneCase => some (.fin (roundQ resPrec rnd 1), 0)
  | .moneCase => some (.fin (roundQ resPrec rnd (if n % 2 = 0 then 1 else -1)), 0)
  | .degZero => some (.fin (roundQ resPrec rnd 1), 0)
  | .degOne =>
    match x with
    | .fin q => some (.fin (roundQ resPrec rnd q), ternQ resPrec rnd q)
    | _ => none
  | .zeroOdd => some (.fin 0, 0)
  | .general =>
    match x with
    | .fin q =>
      let nn := n.toNat
      let loopErr := 7 * nn + 1
      let rp0 := resPrec + intCeilLog2 resPrec * nn + loopErr
      let rp1 := if xprec < rp0 then rp0 else xprec
      let err0 := intCeilLog2 loopErr + 5
      (legendreZivLoop resPrec rnd q nn fuel rp1 err0).map
        (fun pn => (.fin (roundQ resPrec rnd pn), ternQ resPrec rnd pn))
    | _ => none

/-- The short-circuit branches of mpfr_hermite, in source order. -/
inductive HClass
  | nanCase | degZero | zeroEven | zeroOdd | degOne | general
deriving DecidableEq, Repr

/-- Embeds the classifier of mpfr_hermite: NaN and infinities first, then
n = 0, then x = 0 split on the parity of n, then n = 1. -/
def hermiteClassify (n : ℤ) (x : MF) : HClass :=
  match x with
  | .nan => .nanCase
  | .pinf => .nanCase
  | .ninf => .nanCase
  | .fin q =>
    if n = 0 then .degZero
    else if q = 0 then (if n % 2 = 0 then .zeroEven else .zeroOdd)
    else if n = 1 then .degOne
    else .general

/-- Modelled from the spec: the external correctly-rounded lngamma and the
overflow-flag-capturing wrapper around exponentiation consumed by the
closed-form path (both are outside the two source files).  The oracle maps a
working precision and an argument to the value the external routine returns;
exp returns none exactly when the MPFR_BLOCK flags record an overflow. -/
structure ZeroXOracle where
  lngamma : ℕ → ℚ → ℚ
  exp : ℕ → ℚ → Option ℚ

/-- Outcome of one iteration of the loop inside zero_x_even_degree. -/
inductive StepOut
  | overflow
  | converged (e : ℚ)
  | again (next : ℕ)
deriving DecidableEq, Repr

/-- Embeds one iteration of the loop of zero_x_even_degree in
src/src/hermite.c: set first = n + 1 and second = n / 2 + 1, take the two
lngamma values, subtract, exponentiate (checking overflow), then run the
provably-exact and can-round exits.  The source contains no MPFR_ZIV_NEXT
and no reallocation, so the continue outcome carries the unchanged working
precision. -/
def zeroXEvenStep (O : ZeroXOracle) (n resPrec realprec : ℕ) (rnd : Rnd) :
    StepOut :=
  let first := roundQ realprec .N ((n + 1 : ℕ) : ℚ)
  let second := roundQ realprec .N ((n / 2 + 1 : ℕ) : ℚ)
  let g1 := O.lngamma realprec first
  let g2 := O.lngamma realprec second
  let sub := roundQ realprec .N (g1 - g2)
  match O.exp realprec sub with
  | none => .overflow
  | some e =>
    let es := expQ sub
    let err : ℤ := if 0 < es + 2 then es + 3 else if es + 2 = 0 then 2 else 1
    let test : ℤ := (realprec : ℤ) - err
    if (minPrec e : ℤ) < test - 1 then .converged e
    else if canRound e test resPrec rnd then .converged e
    else .again realprec

/-- Iterates zeroXEvenStep; none is fuel exhaustion, some none the overflow
exit, some (some e) convergence on the magnitude e. -/
def zeroXEvenLoop (O : ZeroXOracle) (n resPrec : ℕ) (rnd : Rnd) :
    ℕ → ℕ → Option (Option ℚ)
  | 0, _ => none
  | fuel + 1, rp =>
    match zeroXEvenStep O n resPrec rp rnd with
    | .overflow => some none
    | .converged e => some (some e)
    | .again rp2 => zeroXEvenLoop O n resPrec rnd fuel rp2

/-- Embeds zero_x_even_degree of src/src/hermite.c: working precision starts
at the result precision plus 10; on overflow the result is NaN with ternary
0; on convergence the magnitude is rounded into the result at the caller
precision and mode, the ternary of that rounding is recorded, and only
afterwards is the sign made negative when n / 2 is odd. -/
def zero_x_even_degree (O : ZeroXOracle) (fuel resPrec n : ℕ) (rnd : Rnd) :
    Option (MF × ℤ) :=
  match zeroXEvenLoop O n resPrec rnd fuel (resPrec + 10) with
  | none => none
  | some none => some (.nan, 0)
  | some (some e) =>
    let t := ternQ resPrec rnd e
    let r := roundQ resPrec rnd e
    some (if (n / 2) % 2 = 1 then (.fin (-r), t) else (.fin r, t))

/-- Embeds the inner while loop of mpfr_hermite (one compute pass); fuel is
n - i, i the loop counter of the source; all operations rounded to nearest
at the working precision w. -/
def hermWhile (w : ℕ) (x : ℚ) : ℕ → ℕ → ℚ → ℚ → ℚ → ℚ
  | 0, _, _, _, pn => pn
  | f + 1, i, p1, p2, _ =>
    let ft0 := roundQ w .N (2 * x)
    let ft := roundQ w .N (ft0 * p1)
    let st := roundQ w .N (((2 * i : ℕ) : ℚ) * p2)
    let pn := roundQ w .N (ft - st)
    hermWhile w x f (i + 1) pn p1 pn

/-- One compute pass of mpfr_hermite: i starts at 1, p1 = 2x rounded at the
working precision, p2 = 1, n - 1 iterations. -/
def hermiteOnePass (w n : ℕ) (x : ℚ) : ℚ :=
  hermWhile w x (n - 1) 1 (roundQ w .N (2 * x)) 1 (roundQ w .N (2 * x))

/-- The Hermite recurrence exactly as the specification words it: p0 = 1,
p1 = 2x, and p_(i+1) equal to 2x p_i minus 2i p_(i-1), every arithmetic
operation rounded to nearest at the working precision. -/
def hermiteSpecAux (w : ℕ) (x : ℚ) : ℕ → ℚ × ℚ
  | 0 => (1, 1)
  | 1 => (2 * x, 1)
  | i + 2 =>
    let prev := hermiteSpecAux w x (i + 1)
    let v := roundQ w .N
      (roundQ w .N ((2 * x) * prev.1) - roundQ w .N (((2 * (i + 1) : ℕ) : ℚ) * prev.2))
    (v, prev.1)

/-- The degree-n Hermite term of the specification recurrence. -/
def hermiteSpec (w : ℕ) (x : ℚ) (n : ℕ) : ℚ :=
  (hermiteSpecAux w x n).1

/-- Embeds error_extra_bits of src/src/hermite.c: the precomputed guard-bit
table for n at most 10, the asymptotic fit beyond.  The C source evaluates
the fit in binary64; the same decimal constants are evaluated here in exact
rational arithmetic (no claim depends on the least bits of this estimate). -/
def error_extra_bits (n : ℕ) : ℕ :=
  if n ≤ 10 then [0, 0, 3, 4, 6, 7, 9, 10, 12, 13, 14].getD n 0
  else
    (Int.ceil ((17265701470103810 : ℚ) / 10 ^ 16
      + (n : ℚ) * ((14499843134764958 : ℚ) / 10 ^ 16) + 1)).toNat

/-- Embeds the Ziv loop of mpfr_hermite over the general recurrence path. -/
def hermiteZivLoop (resP : ℕ) (rnd : Rnd) (x : ℚ) (n : ℕ) (err : ℕ) :
    ℕ → ℕ → Option ℚ
  | 0, _ => none
  | fuel + 1, w =>
    let pn := hermiteOnePass w n x
    let test : ℤ := (w : ℤ) - (err : ℤ)
    if (minPrec pn : ℤ) < test - 1 then some pn
    else if canRound pn test resP rnd then some pn
    else hermiteZivLoop resP rnd x n err fuel (zivNext w)

/-- Embeds mpfr_hermite of src/src/hermite.c.  The oracle supplies the
external lngamma and exp used by the x = 0 even-degree path; fuel bounds the
otherwise unbounded loops; the general path models degrees n of at least 2
(the source runs it with an unsigned loop counter). -/
def mpfr_hermite (O : ZeroXOracle) (fuel resPrec : ℕ) (n : ℤ) (xprec : ℕ)
    (x : MF) (rnd : Rnd) : Option (MF × ℤ) :=
  match hermiteClassify n x with
  | .nanCase => some (.nan, 0)
  | .degZero => some (.fin (roundQ resPrec rnd 1), 0)
  | .zeroEven => zero_x_even_degree O fuel resPrec n.toNat rnd
  | .zeroOdd => some (.fin 0, 0)
  | .degOne =>
    match x with
    | .fin q => some (.fin (roundQ resPrec rnd (2 * q)), ternQ resPrec rnd (2 * q))
    | _ => none
  | .general =>
    match x with
    | .fin q =>
      let rp0 := if resPrec < xprec then xprec else resPrec + 10
      let rp := rp0 + intCeilLog2 rp0
      let err := error_extra_bits n.toNat + 2
      (hermiteZivLoop resPrec rnd q n.toNat err fuel rp).map
        (fun pn => (.fin (roundQ resPrec rnd pn), ternQ resPrec rnd pn))
    | _ => none

/-- A trivial oracle instance for concrete evaluations that never reach the
closed-form path or never leave its first iteration. -/
def oracle0 : ZeroXOracle :=
  ⟨fun _ _ => 0, fun _ _ => some 1⟩

/-- An oracle instance describing an external lngamma pair whose difference
is 1 and an exponential equal to 5, used to drive the closed-form loop to
convergence on a concrete magnitude. -/
def oracle5 : ZeroXOracle :=
  ⟨fun _ q => if q = 3 then 2 else 1, fun _ _ => some 5⟩

/-- Claim C6: for every degree n (negative and beyond any ceiling included)
and both entry points, a NaN or infinite x yields a NaN result with ternary
value 0. -/
theorem nan_inf_inputs_give_nan (O : ZeroXOracle) (fuel resPrec xprec : ℕ)
    (n : ℤ) (rnd : Rnd) (x : MF) (hx : x = .nan ∨ x = .pinf ∨ x = .ninf) :
    mpfr_legendre fuel resPrec n xprec x rnd = some (.nan, 0) ∧
    mpfr_hermite O fuel resPrec n xprec x rnd = some (.nan, 0) := by
  rcases hx with rfl | rfl | rfl <;>
    simp [mpfr_legendre, mpfr_hermite, legendreClassify, hermiteClassify]

/-- Witness for C6 at degree 9000 (beyond the Legendre ceiling) and NaN. -/
theorem nan_inf_inputs_give_nan_witness :
    mpfr_legendre 0 2 9000 2 MF.nan Rnd.N = some (MF.nan, 0) ∧
    mpfr_hermite oracle0 0 2 9000 2 MF.nan Rnd.N = some (MF.nan, 0) :=
  nan_inf_inputs_give_nan oracle0 0 2 2 9000 Rnd.N MF.nan (Or.inl rfl)

/-- Claim C3 counterexample: degree-1 mpfr_legendre returns the ternary of
mpfr_set, the rounding of x into the result precision, and that ternary is
nonzero when x does not fit the result precision: x = 11/16 at result
precision 2 rounds to 3/4 with ternary 1, while the claim demands ternary 0
for every x and result precision. -/
theorem legendre_deg1_ternary_nonzero :
    ∃ r, mpfr_legendre 0 2 1 4 (MF.fin (11/16)) Rnd.N = some r ∧ r.2 ≠ 0 :=
  ⟨(MF.fin (3/4), 1), by with_unfolding_all decide, by decide⟩

/-- Claim C3 amended: every base-case return other than the ceiling
rejection is exact, with ternary 0, except the two degree-1 cases: Hermite
n = 1 returns the real ternary of the single rounded multiply computing 2x,
and Legendre n = 1 likewise returns the real ternary of the single rounding
of x into the result precision. -/
theorem base_case_ternary_values (O : ZeroXOracle) (fuel resPrec xprec : ℕ)
    (n : ℤ) (rnd : Rnd) (q : ℚ) (hp : 1 ≤ resPrec) :
    (mpfr_legendre fuel resPrec n xprec MF.nan rnd = some (.nan, 0)) ∧
    (mpfr_hermite O fuel resPrec n xprec MF.nan rnd = some (.nan, 0)) ∧
    (mpfr_legendre fuel resPrec n xprec MF.pinf rnd = some (.nan, 0)) ∧
    (mpfr_hermite O fuel resPrec n xprec MF.pinf rnd = some (.nan, 0)) ∧
    (mpfr_legendre fuel resPrec n xprec MF.ninf rnd = some (.nan, 0)) ∧
    (mpfr_hermite O fuel resPrec n xprec MF.ninf rnd = some (.nan, 0)) ∧
    ((1 < q ∨ q < -1) →
      mpfr_legendre fuel resPrec n xprec (MF.fin q) rnd = some (.nan, 0)) ∧
    ((0 ≤ n ∧ n ≤ 8192) →
      mpfr_legendre fuel resPrec n xprec (MF.fin 1) rnd = some (.fin 1, 0)) ∧
    ((0 ≤ n ∧ n ≤ 8192) →
      mpfr_legendre fuel resPrec n xprec (MF.fin (-1)) rnd
        = some (.fin (if n % 2 = 0 then 1 else -1), 0)) ∧
    ((-1 ≤ q ∧ q ≤ 1 ∧ q ≠ 1 ∧ q ≠ -1 ∧ n = 0) →
      mpfr_legendre fuel resPrec n xprec (MF.fin q) rnd = some (.fin 1, 0)) ∧
    ((-1 ≤ q ∧ q ≤ 1 ∧ q ≠ 1 ∧ q ≠ -1 ∧ n = 1) →
      mpfr_legendre fuel resPrec n xprec (MF.fin q) rnd
        = some (.fin (roundQ resPrec rnd q), ternQ resPrec rnd q)) ∧
    ((q = 0 ∧ n % 2 = 1 ∧ 0 ≤ n ∧ n ≤ 8192 ∧ n ≠ 1) →
      mpfr_legendre fuel resPrec n xprec (MF.fin q) rnd = some (.fin 0, 0)) ∧
    (n = 0 →
      mpfr_hermite O fuel resPrec n xprec (MF.fin q) rnd = some (.fin 1, 0)) ∧
    ((q = 0 ∧ n % 2 = 1) →
      mpfr_hermite O fuel resPrec n xprec (MF.fin q) rnd = some (.fin 0, 0)) ∧
    ((n = 1 ∧ q ≠ 0) →
      mpfr_hermite O fuel resPrec n xprec (MF.fin q) rnd
        = some (.fin (roundQ resPrec rnd (2 * q)), ternQ resPrec rnd (2 * q))) := by
  refine ⟨?_, ?_, ?_, ?_, ?_, ?_, ?_, ?_, ?_, ?_, ?_, ?_, ?_, ?_, ?_⟩
  · simp [mpfr_legendre, legendreClassify]
  · simp [mpfr_hermite, hermiteClassify]
  · simp [mpfr_legendre, legendreClassify]
  · simp [mpfr_hermite, hermiteClassify]
  · simp [mpfr_legendre, legendreClassify]
  · simp [mpfr_hermite, hermiteClassify]
  · intro h
    have hdom : (decide (q ≤ 1) && decide (-1 ≤ q)) = false := by
      rcases h with h | h
      · rw [decide_eq_false (not_le.mpr h)]
        simp
      · rw [decide_eq_false (not_le.mpr h)]
        simp
    have hcl : legendreClassify n (MF.fin q) = .nanCase := by
      simp only [legendreClassify]
      rw [if_pos (Or.inl hdom)]
    simp [mpfr_legendre, hcl]
  · rintro ⟨h0n, h8n⟩
    have hcl : legendreClassify n (MF.fin 1) = .oneCase := by
      unfold legendreClassify
      rw [if_neg (by simp; omega), if_pos rfl]
    simp [mpfr_legendre, hcl, roundQ_exact (reprAt_one hp) rnd]
  · rintro ⟨h0n, h8n⟩
    have hcl : legendreClassify n (MF.fin (-1)) = .moneCase := by
      unfold legendreClassify
      rw [if_neg (by simp; omega), if_neg (by decide), if_pos rfl]
    by_cases hpar : n % 2 = 0
    · simp [mpfr_legendre, hcl, hpar, roundQ_exact (reprAt_one hp) rnd]
    · simp [mpfr_legendre, hcl, hpar,
        roundQ_exact (reprAt_neg (reprAt_one hp)) rnd]
  · rintro ⟨h1, h2, h3, h4, rfl⟩
    have hcl : legendreClassify 0 (MF.fin q) = .degZero := by
      simp only [legendreClassify]
      rw [if_neg (by simp [h1, h2]), if_neg (by simp [h3]),
        if_neg (by simp [h4]), if_pos trivial]
    simp [mpfr_legendre, hcl, roundQ_exact (reprAt_one hp) rnd]
  · rintro ⟨h1, h2, h3, h4, rfl⟩
    have hcl : legendreClassify 1 (MF.fin q) = .degOne := by
      simp only [legendreClassify]
      rw [if_neg (by simp [h1, h2]), if_neg (by simp [h3]),
        if_neg (by simp [h4]), if_neg (by norm_num), if_pos trivial]
    simp [mpfr_legendre, hcl]
  · rintro ⟨rfl, hodd, hn0, hn8, hn1⟩
    have hcl : legendreClassify n (MF.fin 0) = .zeroOdd := by
      simp only [legendreClassify]
      rw [if_neg (by simp; omega), if_neg (by simp), if_neg (by simp),
        if_neg (by omega), if_neg hn1, if_pos ⟨trivial, hodd⟩]
    simp [mpfr_legendre, hcl]
  · rintro rfl
    have hcl : hermiteClassify 0 (MF.fin q) = .degZero := by
      simp only [hermiteClassify]
      rw [if_pos trivial]
    simp [mpfr_hermite, hcl, roundQ_exact (reprAt_one hp) rnd]
  · rintro ⟨rfl, hodd⟩
    have hcl : hermiteClassify n (MF.fin 0) = .zeroOdd := by
      simp only [hermiteClassify]
      rw [if_neg (show ¬ n = 0 by omega)]
      simp [hodd]
    simp [mpfr_hermite, hcl]
  · rintro ⟨rfl, hq0⟩
    have hcl : hermiteClassify 1 (MF.fin q) = .degOne := by
      simp only [hermiteClassify]
      rw [if_neg (by norm_num), if_neg hq0, if_pos trivial]
    simp [mpfr_hermite, hcl]

/-- Witness for the amended C3 at degree 1 and x = 11/16. -/
theorem base_case_ternary_values_witness :
    (mpfr_legendre 0 2 1 4 MF.nan Rnd.N = some (.nan, 0)) ∧
    (mpfr_hermite oracle0 0 2 1 4 MF.nan Rnd.N = some (.nan, 0)) ∧
    (mpfr_legendre 0 2 1 4 MF.pinf Rnd.N = some (.nan, 0)) ∧
    (mpfr_hermite oracle0 0 2 1 4 MF.pinf Rnd.N = some (.nan, 0)) ∧
    (mpfr_legendre 0 2 1 4 MF.ninf Rnd.N = some (.nan, 0)) ∧
    (mpfr_hermite oracle0 0 2 1 4 MF.ninf Rnd.N = some (.nan, 0)) ∧
    ((1 < (11/16 : ℚ) ∨ (11/16 : ℚ) < -1) →
      mpfr_legendre 0 2 1 4 (MF.fin (11/16)) Rnd.N = some (.nan, 0)) ∧
    (((0 : ℤ) ≤ 1 ∧ (1 : ℤ) ≤ 8192) →
      mpfr_legendre 0 2 1 4 (MF.fin 1) Rnd.N = some (.fin 1, 0)) ∧
    (((0 : ℤ) ≤ 1 ∧ (1 : ℤ) ≤ 8192) →
      mpfr_legendre 0 2 1 4 (MF.fin (-1)) Rnd.N
        = some (.fin (if (1 : ℤ) % 2 = 0 then 1 else -1), 0)) ∧
    ((-1 ≤ (11/16 : ℚ) ∧ (11/16 : ℚ) ≤ 1 ∧ (11/16 : ℚ) ≠ 1 ∧
        (11/16 : ℚ) ≠ -1 ∧ (1 : ℤ) = 0) →
      mpfr_legendre 0 2 1 4 (MF.fin (11/16)) Rnd.N = some (.fin 1, 0)) ∧
    ((-1 ≤ (11/16 : ℚ) ∧ (11/16 : ℚ) ≤ 1 ∧ (11/16 : ℚ) ≠ 1 ∧
        (11/16 : ℚ) ≠ -1 ∧ (1 : ℤ) = 1) →
      mpfr_legendre 0 2 1 4 (MF.fin (11/16)) Rnd.N
        = some (.fin (roundQ 2 Rnd.N (11/16)), ternQ 2 Rnd.N (11/16))) ∧
    (((11/16 : ℚ) = 0 ∧ (1 : ℤ) % 2 = 1 ∧ (0 : ℤ) ≤ 1 ∧ (1 : ℤ) ≤ 8192 ∧
        (1 : ℤ) ≠ 1) →
      mpfr_legendre 0 2 1 4 (MF.fin (11/16)) Rnd.N = some (.fin 0, 0)) ∧
    ((1 : ℤ) = 0 →
      mpfr_hermite oracle0 0 2 1 4 (MF.fin (11/16)) Rnd.N = some (.fin 1, 0)) ∧
    (((11/16 : ℚ) = 0 ∧ (1 : ℤ) % 2 = 1) →
      mpfr_hermite oracle0 0 2 1 4 (MF.fin (11/16)) Rnd.N = some (.fin 0, 0)) ∧
    (((1 : ℤ) = 1 ∧ (11/16 : ℚ) ≠ 0) →
      mpfr_hermite oracle0 0 2 1 4 (MF.fin (11/16)) Rnd.N
        = some (.fin (roundQ 2 Rnd.N (2 * (11/16))), ternQ 2 Rnd.N (2 * (11/16)))) :=
  base_case_ternary_values oracle0 0 2 4 1 Rnd.N (11/16) (by norm_num)

/-- Claim C4 counterexample: mpfr_hermite applies no degree ceiling; at
degree 8193 = 2^13 + 1 and x = 0 it returns zero with ternary 0, not NaN. -/
theorem hermite_no_degree_ceiling :
    ∃ r, mpfr_hermite oracle0 0 2 8193 2 (MF.fin 0) Rnd.N = some r ∧
      r.1 ≠ MF.nan :=
  ⟨(MF.fin 0, 0), by decide, by decide⟩

/-- Claim C4 amended: mpfr_legendre (alone) rejects every degree n < 0 or
n > 8192 with NaN and ternary 0, for every x, mode, precision and fuel
(fuel 0 included, so no iterative work happens). -/
theorem legendre_degree_ceiling (fuel resPrec xprec : ℕ) (n : ℤ) (x : MF)
    (rnd : Rnd) (hn : n < 0 ∨ 8192 < n) :
    mpfr_legendre fuel resPrec n xprec x rnd = some (.nan, 0) := by
  have hcl : legendreClassify n x = .nanCase := by
    unfold legendreClassify
    rw [if_pos (Or.inr hn)]
  simp [mpfr_legendre, hcl]

/-- Witness for the amended C4 at degree 8193 with zero fuel. -/
theorem legendre_degree_ceiling_witness :
    mpfr_legendre 0 2 8193 2 (MF.fin 1) Rnd.N = some (MF.nan, 0) :=
  legendre_degree_ceiling 0 2 2 8193 (MF.fin 1) Rnd.N (Or.inr (by norm_num))

/-- Claim C9 counterexample: because the ceiling test precedes the endpoint
shortcut, mpfr_legendre at degree 8193 and x = 1 returns NaN, not 1. -/
theorem legendre_at_one_above_ceiling_nan :
    mpfr_legendre 0 5 8193 5 (MF.fin 1) Rnd.N = some (MF.nan, 0) ∧
    MF.nan ≠ MF.fin 1 :=
  ⟨by decide, by decide⟩

/-- Claim C9 amended: for every degree 0 ≤ n ≤ 8192, result precision at
least 1, any mode and any fuel (0 included, so Bonnet recursion never runs),
mpfr_legendre returns exactly 1 at x = 1 and exactly (-1)^n at x = -1, with
ternary 0. -/
theorem legendre_endpoints (fuel resPrec xprec : ℕ) (n : ℤ) (rnd : Rnd)
    (hp : 1 ≤ resPrec) (h0 : 0 ≤ n) (h1 : n ≤ 8192) :
    mpfr_legendre fuel resPrec n xprec (MF.fin 1) rnd = some (MF.fin 1, 0) ∧
    mpfr_legendre fuel resPrec n xprec (MF.fin (-1)) rnd
      = some (MF.fin (if n % 2 = 0 then 1 else -1), 0) := by
  constructor
  · have hcl : legendreClassify n (MF.fin 1) = .oneCase := by
      unfold legendreClassify
      rw [if_neg (by simp; omega), if_pos rfl]
    simp [mpfr_legendre, hcl, roundQ_exact (reprAt_one hp) rnd]
  · have hcl : legendreClassify n (MF.fin (-1)) = .moneCase := by
      unfold legendreClassify
      rw [if_neg (by simp; omega), if_neg (by decide), if_pos rfl]
    by_cases hpar : n % 2 = 0
    · simp [mpfr_legendre, hcl, hpar, roundQ_exact (reprAt_one hp) rnd]
    · simp [mpfr_legendre, hcl, hpar,
        roundQ_exact (reprAt_neg (reprAt_one hp)) rnd]

/-- Witness for the amended C9 at degree 3. -/
theorem legendre_endpoints_witness :
    mpfr_legendre 0 5 3 5 (MF.fin 1) Rnd.D = some (MF.fin 1, 0) ∧
    mpfr_legendre 0 5 3 5 (MF.fin (-1)) Rnd.D
      = some (MF.fin (if (3 : ℤ) % 2 = 0 then 1 else -1), 0) :=
  legendre_endpoints 0 5 5 3 Rnd.D (by norm_num) (by norm_num) (by norm_num)

/-- Claim C5 counterexample: at x = 0 and even degree 2, mpfr_legendre takes
the general-recurrence branch of its classifier (its source has no x = 0
even-degree closed form at all) and computes P2(0) = -1/2 through the
Bonnet recurrence, not through any log-gamma formula. -/
theorem legendre_zero_even_general_path :
    legendreClassify 2 (MF.fin 0) = LClass.general ∧
    mpfr_legendre 5 2 2 2 (MF.fin 0) Rnd.N = some (MF.fin (-(1/2)), 0) := by
  constructor
  · decide
  · with_unfolding_all decide

/-- Claim C5 amended: only mpfr_hermite routes x = 0 with even degree n ≥ 2
to the log-gamma closed form zero_x_even_degree; mpfr_legendre sends x = 0
with even degree 2 ≤ n ≤ 8192 to its general recurrence branch. -/
theorem zero_even_closed_form_paths (O : ZeroXOracle) (fuel resPrec xprec : ℕ)
    (rnd : Rnd) (n : ℤ) (h2 : 2 ≤ n) (he : n % 2 = 0) :
    hermiteClassify n (MF.fin 0) = HClass.zeroEven ∧
    mpfr_hermite O fuel resPrec n xprec (MF.fin 0) rnd
      = zero_x_even_degree O fuel resPrec n.toNat rnd ∧
    (n ≤ 8192 → legendreClassify n (MF.fin 0) = LClass.general) := by
  have hcl : hermiteClassify n (MF.fin 0) = HClass.zeroEven := by
    simp only [hermiteClassify]
    rw [if_neg (show ¬ n = 0 by omega)]
    simp [he]
  refine ⟨hcl, ?_, ?_⟩
  · simp [mpfr_hermite, hcl]
  · intro hle
    unfold legendreClassify
    rw [if_neg (by simp; omega), if_neg (by decide), if_neg (by decide),
      if_neg (by omega), if_neg (by omega), if_neg (by omega)]

/-- Witness for the amended C5 at degree 2. -/
theorem zero_even_closed_form_paths_witness :
    hermiteClassify 2 (MF.fin 0) = HClass.zeroEven ∧
    mpfr_hermite oracle0 1 2 2 2 (MF.fin 0) Rnd.N
      = zero_x_even_degree oracle0 1 2 2 Rnd.N ∧
    ((2 : ℤ) ≤ 8192 → legendreClassify 2 (MF.fin 0) = LClass.general) :=
  zero_even_closed_form_paths oracle0 1 2 2 Rnd.N 2 (by norm_num) (by norm_num)

/-- Claim C2: an iteration of the loop in zero_x_even_degree either
overflows, converges, or continues with the working precision unchanged;
the source contains no MPFR_ZIV_NEXT, so the precision used for the next
compute pass is never increased, contradicting the claimed strict
escalation (when both exits fail the pass recomputes identical values
forever). -/
theorem zero_x_even_step_never_escalates (O : ZeroXOracle)
    (n resPrec realprec : ℕ) (rnd : Rnd) :
    zeroXEvenStep O n resPrec realprec rnd = .overflow ∨
    (∃ e, zeroXEvenStep O n resPrec realprec rnd = .converged e) ∨
    zeroXEvenStep O n resPrec realprec rnd = .again realprec := by
  unfold zeroXEvenStep
  dsimp only
  split
  · exact Or.inl rfl
  · split_ifs <;>
      first
        | exact Or.inr (Or.inl ⟨_, rfl⟩)
        | exact Or.inr (Or.inr rfl)

/-- Claim C10: on the x = 0 even-degree path with n / 2 odd, whenever the
loop converges on a magnitude e, the stored result is the negation of e
rounded under the caller mode and the ternary value is that of rounding the
positive magnitude e; for directed modes this differs from rounding the
true negative value (witnessed at precision 2 on magnitude 5: toward plus
infinity the stored value is -6 while rounding -5 gives -4, and to nearest
the ternary of the magnitude is -1 while that of -5 is 1). -/
theorem zero_even_sign_set_after_rounding (O : ZeroXOracle)
    (fuel resPrec n : ℕ) (rnd : Rnd) (e : ℚ)
    (hn2 : 2 ≤ n) (heven : n % 2 = 0) (hodd : (n / 2) % 2 = 1)
    (hconv : zeroXEvenLoop O n resPrec rnd fuel (resPrec + 10)
      = some (some e)) :
    zero_x_even_degree O fuel resPrec n rnd
      = some (MF.fin (-(roundQ resPrec rnd e)), ternQ resPrec rnd e) ∧
    -(roundQ 2 .U 5) ≠ roundQ 2 .U (-5) ∧
    ternQ 2 .N 5 ≠ ternQ 2 .N (-5) := by
  refine ⟨?_, by with_unfolding_all decide, by with_unfolding_all decide⟩
  unfold zero_x_even_degree
  rw [hconv]
  simp [hodd]

/-- Witness for C10 with the concrete oracle converging on magnitude 5 at
degree 2 and result precision 2, toward plus infinity. -/
theorem zero_even_sign_set_after_rounding_witness :
    zero_x_even_degree oracle5 1 2 2 Rnd.U
      = some (MF.fin (-(roundQ 2 Rnd.U 5)), ternQ 2 Rnd.U 5) ∧
    -(roundQ 2 .U 5) ≠ roundQ 2 .U (-5) ∧
    ternQ 2 .N 5 ≠ ternQ 2 .N (-5) :=
  zero_even_sign_set_after_rounding oracle5 1 2 2 Rnd.U 5
    (by norm_num) (by norm_num) (by norm_num) (by with_unfolding_all decide)

/-- Claim C7: the cancellation detector of mpfr_legendre fires only on
nonzero same-sign operands whose exponents are within 2 of each other; it
measures the lost bits as the larger operand exponent minus the exponent of
the difference computed at 8 extra bits; and the recurrence step aborts the
subtraction, with the driver raising the working precision by the lost bits
plus 2, the error budget by the lost bits, and restarting the pass from the
base cases, exactly when the reported loss exceeds the budgeted margin
(working precision minus result precision). -/
theorem cancellation_detector_and_restart
    (a b : ℚ) (w resP n fuel errb i f : ℕ) (x p1 p2 pn : ℚ) (lost : ℕ) :
    (likely_cancellation a b w ≠ 0 →
      a ≠ 0 ∧ b ≠ 0 ∧ ((0 < a) ↔ (0 < b)) ∧ ((expQ a) - (expQ b)).natAbs ≤ 2) ∧
    (a ≠ 0 → b ≠ 0 → ((0 < a) ↔ (0 < b)) → ((expQ a) - (expQ b)).natAbs ≤ 2 →
      roundQ (w + 8) .N (a - b) ≠ 0 →
      2 ≤ max (expQ a) (expQ b) - expQ (roundQ (w + 8) .N (a - b)) →
      (likely_cancellation a b w : ℤ)
        = max (expQ a) (expQ b) - expQ (roundQ (w + 8) .N (a - b))) ∧
    ((w : ℤ) - (resP : ℤ) <
        (likely_cancellation
          (roundQ w .N (roundQ w .N (((2 * i - 1 : ℕ) : ℚ) * x) * p1))
          (roundQ w .N (((i - 1 : ℕ) : ℚ) * p2)) w : ℤ) →
      legWhile w resP x (f + 1) i p1 p2 pn
        = .cancel (likely_cancellation
            (roundQ w .N (roundQ w .N (((2 * i - 1 : ℕ) : ℚ) * x) * p1))
            (roundQ w .N (((i - 1 : ℕ) : ℚ) * p2)) w)) ∧
    (¬ ((w : ℤ) - (resP : ℤ) <
        (likely_cancellation
          (roundQ w .N (roundQ w .N (((2 * i - 1 : ℕ) : ℚ) * x) * p1))
          (roundQ w .N (((i - 1 : ℕ) : ℚ) * p2)) w : ℤ)) →
      legWhile w resP x (f + 1) i p1 p2 pn
        = legWhile w resP x f (i + 1)
            (roundQ w .N (roundQ w .N
                (roundQ w .N (roundQ w .N (((2 * i - 1 : ℕ) : ℚ) * x) * p1)
                  - roundQ w .N (((i - 1 : ℕ) : ℚ) * p2)) / ((i : ℕ) : ℚ)))
            p1
            (roundQ w .N (roundQ w .N
                (roundQ w .N (roundQ w .N (((2 * i - 1 : ℕ) : ℚ) * x) * p1)
                  - roundQ w .N (((i - 1 : ℕ) : ℚ) * p2)) / ((i : ℕ) : ℚ)))) ∧
    (legendreOnePass w resP n x = .cancel lost →
      legendreCompute resP x n (fuel + 1) w errb
        = legendreCompute resP x n fuel (w + lost + 2) (errb + lost)) := by
  refine ⟨?_, ?_, ?_, ?_, ?_⟩
  · intro hne
    unfold likely_cancellation at hne
    by_cases hz : a = 0 ∨ b = 0
    · rw [if_pos hz] at hne
      exact absurd rfl hne
    push_neg at hz
    rw [if_neg (by push_neg; exact hz)] at hne
    by_cases hsg : (decide (0 < a)) ≠ (decide (0 < b))
    · rw [if_pos hsg] at hne
      exact absurd rfl hne
    rw [if_neg hsg] at hne
    push_neg at hsg
    by_cases hex : 2 < ((expQ a) - (expQ b)).natAbs
    · rw [if_pos hex] at hne
      exact absurd rfl hne
    exact ⟨hz.1, hz.2, decide_eq_decide.mp hsg, by omega⟩
  · intro ha hb hs hex hd hlost
    unfold likely_cancellation
    rw [if_neg (by push_neg; exact ⟨ha, hb⟩),
      if_neg (show ¬ (decide (0 < a)) ≠ (decide (0 < b)) from
        fun hcon => hcon (decide_eq_decide.mpr hs)),
      if_neg (by omega), if_neg hd, if_neg (by omega)]
    exact Int.toNat_of_nonneg (by omega)
  · intro htrig
    simp only [legWhile]
    rw [if_pos htrig]
  · intro htrig
    simp only [legWhile]
    rw [if_neg htrig]
  · intro hpass
    simp only [legendreCompute, hpass]

/-- Witness for C7: at working precision 4 and result precision 3 the
operands 3/2 and 13/8 cancel 3 bits, aborting the step, and a pass that
reports 2 lost bits makes the driver restart at precision 4 + 2 + 2. -/
theorem cancellation_detector_and_restart_witness :
    legWhile 4 3 (1/2) 1 2 1 (13/8) 0
      = .cancel (likely_cancellation
          (roundQ 4 .N (roundQ 4 .N (((2 * 2 - 1 : ℕ) : ℚ) * (1/2)) * 1))
          (roundQ 4 .N (((2 - 1 : ℕ) : ℚ) * (13/8))) 4) ∧
    legendreCompute 3 (1/2) 5 1 4 9 = legendreCompute 3 (1/2) 5 0 (4 + 2 + 2) (9 + 2) :=
  ⟨(cancellation_detector_and_restart (3/2) (13/8) 4 3 5 0 9 2 0 (1/2) 1 (13/8) 0 2).2.2.1
      (by with_unfolding_all decide),
    (cancellation_detector_and_restart (3/2) (13/8) 4 3 5 0 9 2 0 (1/2) 1 (13/8) 0 2).2.2.2.2
      (by with_unfolding_all decide)⟩

/-- One-step unfolding of the Legendre inner loop at positive fuel. -/
theorem legWhile_succ (w resP : ℕ) (x : ℚ) (f i : ℕ) (p1 p2 pn : ℚ) :
    legWhile w resP x (f + 1) i p1 p2 pn =
      (if (w : ℤ) - (resP : ℤ) <
          (likely_cancellation
            (roundQ w .N (roundQ w .N (((2 * i - 1 : ℕ) : ℚ) * x) * p1))
            (roundQ w .N (((i - 1 : ℕ) : ℚ) * p2)) w : ℤ)
        then .cancel (likely_cancellation
            (roundQ w .N (roundQ w .N (((2 * i - 1 : ℕ) : ℚ) * x) * p1))
            (roundQ w .N (((i - 1 : ℕ) : ℚ) * p2)) w)
        else legWhile w resP x f (i + 1)
          (roundQ w .N (roundQ w .N
            (roundQ w .N (roundQ w .N (((2 * i - 1 : ℕ) : ℚ) * x) * p1)
              - roundQ w .N (((i - 1 : ℕ) : ℚ) * p2)) / ((i : ℕ) : ℚ)))
          p1
          (roundQ w .N (roundQ w .N
            (roundQ w .N (roundQ w .N (((2 * i - 1 : ℕ) : ℚ) * x) * p1)
              - roundQ w .N (((i - 1 : ℕ) : ℚ) * p2)) / ((i : ℕ) : ℚ)))) := rfl

/-- One-step unfolding of the Hermite inner loop at positive fuel. -/
theorem hermWhile_succ (w : ℕ) (x : ℚ) (f i : ℕ) (p1 p2 pn : ℚ) :
    hermWhile w x (f + 1) i p1 p2 pn =
      hermWhile w x f (i + 1)
        (roundQ w .N (roundQ w .N (roundQ w .N (2 * x) * p1)
          - roundQ w .N (((2 * i : ℕ) : ℚ) * p2)))
        p1
        (roundQ w .N (roundQ w .N (roundQ w .N (2 * x) * p1)
          - roundQ w .N (((2 * i : ℕ) : ℚ) * p2))) := rfl

/-- Invariant of the Legendre inner loop: a finished pass starting at index
i with the two most recent specification terms produces the specification
term of the final index. -/
theorem legWhile_finished_eq_spec (w resP : ℕ) (x : ℚ) :
    ∀ f i p1 p2 pn r, 2 ≤ i →
      (p1, p2) = legendreSpecAux w x (i - 1) →
      legWhile w resP x (f + 1) i p1 p2 pn = .finished r →
      r = (legendreSpecAux w x (i + f)).1 := by
  intro f
  induction f with
  | zero =>
    intro i p1 p2 pn r h2 h12 hrun
    obtain ⟨j, rfl⟩ : ∃ j, i = j + 2 := ⟨i - 2, by omega⟩
    replace h12 : (p1, p2) = legendreSpecAux w x (j + 1) := h12
    have hp1 : p1 = (legendreSpecAux w x (j + 1)).1 := by rw [← h12]
    have hp2 : p2 = (legendreSpecAux w x (j + 1)).2 := by rw [← h12]
    simp only [legWhile] at hrun
    split at hrun
    · exact absurd hrun (by simp)
    · injection hrun with h
      subst h
      rw [show j + 2 + 0 = j + 2 by omega]
      simp only [legendreSpecAux]
      rw [show j + 2 - 1 = j + 1 by omega, hp1, hp2]
  | succ f ih =>
    intro i p1 p2 pn r h2 h12 hrun
    obtain ⟨j, rfl⟩ : ∃ j, i = j + 2 := ⟨i - 2, by omega⟩
    replace h12 : (p1, p2) = legendreSpecAux w x (j + 1) := h12
    have hp1 : p1 = (legendreSpecAux w x (j + 1)).1 := by rw [← h12]
    have hp2 : p2 = (legendreSpecAux w x (j + 1)).2 := by rw [← h12]
    rw [legWhile_succ] at hrun
    split at hrun
    · exact absurd hrun (by simp)
    · have hnext := ih (j + 3) _ _ _ r (by omega) ?_ hrun
      · rw [show j + 3 + f = j + 2 + (f + 1) by omega] at hnext
        exact hnext
      · show _ = legendreSpecAux w x (j + 2)
        simp only [legendreSpecAux]
        rw [show j + 2 - 1 = j + 1 by omega, hp1, hp2]
/-- Invariant of the Hermite inner loop: a pass starting at index i with the
two most recent specification terms produces the specification term of the
final index. -/
theorem hermWhile_eq_spec (w : ℕ) (x : ℚ) (hx2 : roundQ w .N (2 * x) = 2 * x) :
    ∀ f i p1 p2 pn, 1 ≤ i →
      (p1, p2) = hermiteSpecAux w x i →
      hermWhile w x (f + 1) i p1 p2 pn = (hermiteSpecAux w x (i + f + 1)).1 := by
  intro f
  induction f with
  | zero =>
    intro i p1 p2 pn h1 h12
    obtain ⟨j, rfl⟩ : ∃ j, i = j + 1 := ⟨i - 1, by omega⟩
    have hp1 : p1 = (hermiteSpecAux w x (j + 1)).1 := by rw [← h12]
    have hp2 : p2 = (hermiteSpecAux w x (j + 1)).2 := by rw [← h12]
    rw [show j + 1 + 0 + 1 = j + 2 by omega]
    simp only [hermWhile]
    simp only [hermiteSpecAux]
    rw [hp1, hp2, hx2]
  | succ f ih =>
    intro i p1 p2 pn h1 h12
    obtain ⟨j, rfl⟩ : ∃ j, i = j + 1 := ⟨i - 1, by omega⟩
    have hp1 : p1 = (hermiteSpecAux w x (j + 1)).1 := by rw [← h12]
    have hp2 : p2 = (hermiteSpecAux w x (j + 1)).2 := by rw [← h12]
    have hnext := ih (j + 2)
      (roundQ w .N (roundQ w .N (roundQ w .N (2 * x) * p1)
        - roundQ w .N (((2 * (j + 1) : ℕ) : ℚ) * p2)))
      p1
      (roundQ w .N (roundQ w .N (roundQ w .N (2 * x) * p1)
        - roundQ w .N (((2 * (j + 1) : ℕ) : ℚ) * p2)))
      (by omega) ?_
    · rw [hermWhile_succ]
      rw [show j + 2 + f + 1 = j + 1 + (f + 1) + 1 by omega] at hnext
      exact hnext
    · show _ = hermiteSpecAux w x (j + 2)
      simp only [hermiteSpecAux]
      rw [hp1, hp2, hx2]
/-- Claim C8: one compute pass of either evaluator computes exactly the
recurrence worded by the specification over a sliding two-term window, with
every intermediate arithmetic operation rounded to nearest at the working
precision; the pass functions take no rounding mode, the caller mode
entering only in the final rounding performed by the entry points. -/
theorem one_pass_is_spec_recurrence (w resP n : ℕ) (x : ℚ) (pn : ℚ)
    (hx : reprAt w x) (hn : 2 ≤ n)
    (hpass : legendreOnePass w resP n x = .finished pn) :
    pn = legendreSpec w x n ∧ hermiteOnePass w n x = hermiteSpec w x n := by
  have hx1 : roundQ w .N x = x := roundQ_exact hx .N
  have hx2 : roundQ w .N (2 * x) = 2 * x := roundQ_exact (reprAt_two_mul hx) .N
  obtain ⟨m, rfl⟩ : ∃ m, n = m + 2 := ⟨n - 2, by omega⟩
  constructor
  · unfold legendreOnePass at hpass
    replace hpass : legWhile w resP x (m + 1) 2 (roundQ w .N x) 1 (roundQ w .N x)
        = .finished pn := hpass
    have h12 : ((roundQ w .N x), (1 : ℚ)) = legendreSpecAux w x (2 - 1) := by
      simp only [legendreSpecAux]
      rw [hx1]
    have hres := legWhile_finished_eq_spec w resP x m 2
      (roundQ w .N x) 1 (roundQ w .N x) pn (by omega) h12 hpass
    rw [show 2 + m = m + 2 by omega] at hres
    exact hres
  · unfold hermiteOnePass
    have h12 : ((roundQ w .N (2 * x)), (1 : ℚ)) = hermiteSpecAux w x 1 := by
      simp only [hermiteSpecAux]
      rw [hx2]
    have hres := hermWhile_eq_spec w x hx2 m 1
      (roundQ w .N (2 * x)) 1 (roundQ w .N (2 * x)) (by omega) h12
    rw [show 1 + m + 1 = m + 2 by omega] at hres
    exact hres
/-- Witness for C8 at degree 3, x = 1/2, working precision 10: the pass
value -7/16 is the specification recurrence value P3(1/2). -/
theorem one_pass_is_spec_recurrence_witness :
    (-(7/16) : ℚ) = legendreSpec 10 (1/2) 3 ∧
    hermiteOnePass 10 3 (1/2) = hermiteSpec 10 (1/2) 3 :=
  one_pass_is_spec_recurrence 10 5 3 (1/2) (-(7/16))
    ⟨1, -1, by norm_num, by norm_num⟩ (by norm_num)
    (by with_unfolding_all decide)

end MpfrSpec
